import Mathlib

/-!
Shallow embedding of the strawberry-fields greenhouse solver
(`rectangle.py`, `field.py`, `solve_problems.py`) and proofs of the
specification claims about it.

Modelling conventions, used throughout:
* Python integers are `Int`; list indices that the source keeps in range are
  accessed through `List.getD` with default `[]`, which agrees with the
  source whenever the index is in range (all theorems carry the range
  hypotheses under which the two agree).
* The `Memoize` decorator only caches pure functions, so a memoized function
  is modelled as the function itself.
* `random.shuffle` only permutes the order in which pairs of a list are
  examined; it is modelled by the identity permutation (the list's given
  order), and the theorems are quantified over arbitrary input lists.
* Python `while True:` loops are modelled with an explicit fuel argument
  chosen at the call site; the fuel bound is justified in each doc string.
-/

set_option maxRecDepth 20000

namespace StrawberryFields

/-- A grid point, the Python tuple `(row, column)`. -/
abbrev Point := Int × Int

/-- The `Rectangle` namedtuple of rectangle.py: inclusive bounds
`top, left, bottom, right` plus the two stored derived attributes
`cost` and `area`.  Equality is componentwise, as for the Python tuple. -/
structure Rectangle where
  top : Int
  left : Int
  bottom : Int
  right : Int
  cost : Int
  area : Int
  deriving DecidableEq, Repr

/-- `make_rectangle` (rectangle.py): build a rectangle from bounds with
`area = (bottom - top + 1) * (right - left + 1)` and `cost = area + 10`. -/
def make_rectangle (top left bottom right : Int) : Rectangle :=
  let a := (bottom - top + 1) * (right - left + 1)
  { top := top, left := left, bottom := bottom, right := right,
    cost := a + 10, area := a }

/-- `Rectangle.merge` (rectangle.py): bounding box of the two rectangles,
with cost and area recomputed from the new bounds. -/
def Rectangle.merge (s other : Rectangle) : Rectangle :=
  let top := if s.top < other.top then s.top else other.top
  let left := if s.left < other.left then s.left else other.left
  let bottom := if s.bottom > other.bottom then s.bottom else other.bottom
  let right := if s.right > other.right then s.right else other.right
  let a := (bottom - top + 1) * (right - left + 1)
  { top := top, left := left, bottom := bottom, right := right,
    cost := a + 10, area := a }

/-- `merge_rectangles` (solve_problems.py): program-scope memoized wrapper
around `Rectangle.merge`. -/
def merge_rectangles (rect1 rect2 : Rectangle) : Rectangle :=
  rect1.merge rect2

/-- `Rectangle.__contains__` (rectangle.py): inclusive coordinate-range
membership of a point in a rectangle. -/
def Rectangle.containsPoint (rect : Rectangle) (p : Point) : Bool :=
  decide (rect.top ≤ p.1) && decide (p.1 ≤ rect.bottom) &&
    decide (rect.left ≤ p.2) && decide (p.2 ≤ rect.right)

/-- A rectangle whose stored derived attributes agree with its bounds, as is
the case for every rectangle the program constructs (all are produced by
`make_rectangle` or `Rectangle.merge`). -/
def RectangleWF (A : Rectangle) : Prop :=
  A.area = (A.bottom - A.top + 1) * (A.right - A.left + 1) ∧ A.cost = A.area + 10

theorem pymin_eq (a b : Int) : (if a < b then a else b) = min a b := by
  split <;> omega

theorem pymax_eq (a b : Int) : (if a > b then a else b) = max a b := by
  split <;> omega

theorem merge_top (A B : Rectangle) : (A.merge B).top = min A.top B.top := by
  simp [Rectangle.merge, pymin_eq]

theorem merge_left (A B : Rectangle) : (A.merge B).left = min A.left B.left := by
  simp [Rectangle.merge, pymin_eq]

theorem merge_bottom (A B : Rectangle) : (A.merge B).bottom = max A.bottom B.bottom := by
  simp [Rectangle.merge, pymax_eq]

theorem merge_right (A B : Rectangle) : (A.merge B).right = max A.right B.right := by
  simp [Rectangle.merge, pymax_eq]

theorem merge_comm (A B : Rectangle) : A.merge B = B.merge A := by
  simp only [Rectangle.merge, pymin_eq, pymax_eq]
  rw [min_comm A.top, min_comm A.left, max_comm A.bottom, max_comm A.right]

theorem merge_wf (A B : Rectangle) : RectangleWF (A.merge B) := by
  constructor <;> simp [Rectangle.merge]

theorem make_rectangle_wf (t l b r : Int) : RectangleWF (make_rectangle t l b r) := by
  constructor <;> simp [make_rectangle]

theorem merge_self (A : Rectangle) (hA : RectangleWF A) : A.merge A = A := by
  obtain ⟨harea, hcost⟩ := hA
  obtain ⟨t, l, b, r, c, a⟩ := A
  simp only at harea hcost
  simp [Rectangle.merge, harea, hcost]

theorem containsPoint_merge_left (A B : Rectangle) (p : Point)
    (h : A.containsPoint p = true) : (A.merge B).containsPoint p = true := by
  simp only [Rectangle.containsPoint, Bool.and_eq_true, decide_eq_true_eq] at h ⊢
  simp only [merge_top, merge_left, merge_bottom, merge_right]
  omega

theorem containsPoint_merge_right (A B : Rectangle) (p : Point)
    (h : B.containsPoint p = true) : (A.merge B).containsPoint p = true := by
  rw [merge_comm]
  exact containsPoint_merge_left B A p h

/-- Claim C7: `merge(A, B)` is the smallest axis-aligned rectangle containing
both inputs — its top/left are the minima and its bottom/right the maxima of
the inputs' bounds, so every point of `A` and of `B` is contained in it — and
its derived attributes are recomputed from the new bounds as
`area = (bottom-top+1)*(right-left+1)` and `cost = area + 10`; the same
cost/area law holds for every rectangle produced by `make_rectangle`. -/
theorem claim_C7 (A B : Rectangle) (p : Point) :
    (A.merge B).top = min A.top B.top ∧
    (A.merge B).left = min A.left B.left ∧
    (A.merge B).bottom = max A.bottom B.bottom ∧
    (A.merge B).right = max A.right B.right ∧
    (A.containsPoint p = true → (A.merge B).containsPoint p = true) ∧
    (B.containsPoint p = true → (A.merge B).containsPoint p = true) ∧
    (A.merge B).area =
      ((A.merge B).bottom - (A.merge B).top + 1) *
        ((A.merge B).right - (A.merge B).left + 1) ∧
    (A.merge B).cost = (A.merge B).area + 10 ∧
    ∀ t l b r : Int,
      (make_rectangle t l b r).cost = (make_rectangle t l b r).area + 10 ∧
      (make_rectangle t l b r).area = (b - t + 1) * (r - l + 1) := by
  refine ⟨merge_top A B, merge_left A B, merge_bottom A B, merge_right A B,
    containsPoint_merge_left A B p, containsPoint_merge_right A B p,
    (merge_wf A B).1, (merge_wf A B).2, ?_⟩
  intro t l b r
  exact ⟨(make_rectangle_wf t l b r).2, (make_rectangle_wf t l b r).1⟩

/-- Witness for C7 at concrete rectangles and a concrete point. -/
theorem claim_C7_witness :
    ((make_rectangle 0 2 3 4).containsPoint (1, 3) = true →
      ((make_rectangle 0 2 3 4).merge (make_rectangle 1 3 4 5)).containsPoint (1, 3) = true) ∧
    ((make_rectangle 0 2 3 4).merge (make_rectangle 1 3 4 5)).containsPoint (1, 3) = true := by
  have h := claim_C7 (make_rectangle 0 2 3 4) (make_rectangle 1 3 4 5) (1, 3)
  exact ⟨h.2.2.2.2.1, h.2.2.2.2.1 (by decide)⟩

/-- Claim C10: rectangle merge is commutative, and merging a rectangle (with
consistent derived attributes, as all rectangles the program builds have)
with itself returns an equal rectangle. -/
theorem claim_C10 (A B : Rectangle) (hA : RectangleWF A) :
    A.merge B = B.merge A ∧ A.merge A = A :=
  ⟨merge_comm A B, merge_self A hA⟩

/-- Witness for C10 at concrete rectangles. -/
theorem claim_C10_witness :
    (make_rectangle 0 2 3 4).merge (make_rectangle 1 3 4 5) =
      (make_rectangle 1 3 4 5).merge (make_rectangle 0 2 3 4) ∧
    (make_rectangle 0 2 3 4).merge (make_rectangle 0 2 3 4) = make_rectangle 0 2 3 4 :=
  claim_C10 (make_rectangle 0 2 3 4) (make_rectangle 1 3 4 5) (by constructor <;> decide)

/-- `sys.maxsize` on a 64-bit platform, the initial value of the field's
`top`/`left` bookkeeping and of `BestSolution._score`. -/
def sysMaxsize : Int := 2 ^ 63 - 1

/-- The `StrawberryField` object (field.py): berries stored sparsely by row,
bounding-box bookkeeping, and the configured maximum number of greenhouses. -/
structure Field where
  rows : List (List Point)
  num_rows : Nat
  num_cols : Nat
  top : Int
  left : Int
  bottom : Int
  right : Int
  maximum_greenhouses : Nat
  deriving DecidableEq, Repr

/-- `StrawberryField.add_row` (field.py), with the character row already
converted to the list of booleans `elem == "@"` (text parsing is out of
scope per the spec). -/
def addRow (f : Field) (row : List Bool) : Field :=
  let cols : List Int :=
    ((List.range row.length).filter (fun i => row.getD i false)).map Int.ofNat
  { rows := f.rows ++ [cols.map (fun c => (((f.num_rows : Int), c) : Point))]
    num_rows := f.num_rows + 1
    num_cols := if f.num_cols < row.length then row.length else f.num_cols
    top := if cols = [] then f.top else min f.top (f.num_rows : Int)
    bottom := if cols = [] then f.bottom else max f.bottom (f.num_rows : Int)
    left := cols.foldl (fun l c => min l c) f.left
    right := cols.foldl (fun r c => max r c) f.right
    maximum_greenhouses := f.maximum_greenhouses }

/-- `StrawberryField.__init__` (field.py): start from empty bookkeeping
(`top`/`left` at `sys.maxsize`, `bottom`/`right` at `-1`) and add the rows. -/
def mkField (maximum_greenhouses : Nat) (data : List (List Bool)) : Field :=
  data.foldl addRow
    { rows := [], num_rows := 0, num_cols := 0,
      top := sysMaxsize, left := sysMaxsize, bottom := -1, right := -1,
      maximum_greenhouses := maximum_greenhouses }

/-- `self.root_region` as computed at the end of `__init__` (field.py). -/
def Field.root_region (f : Field) : Rectangle :=
  make_rectangle f.top f.left f.bottom f.right

/-- All occupied points of the field: the row lists flattened
(specification-side helper used to state coverage claims). -/
def Field.berries (f : Field) : List Point := f.rows.flatten

/-- Python `xrange(lo, hi)` over integers. -/
def intRange (lo hi : Int) : List Int :=
  (List.range (hi - lo).toNat).map (fun (k : Nat) => lo + (k : Int))

theorem mem_intRange (lo hi x : Int) : x ∈ intRange lo hi ↔ lo ≤ x ∧ x < hi := by
  unfold intRange
  constructor
  · intro hx
    obtain ⟨k, hk, he⟩ := List.mem_map.mp hx
    rw [List.mem_range] at hk
    omega
  · intro h
    exact List.mem_map.mpr ⟨(x - lo).toNat, List.mem_range.mpr (by omega), by omega⟩

/-- `StrawberryField.get_berries_in_rectangle` (field.py).  The source
indexes `self.rows[i]` directly; row access is modelled totally through
`List.getD` with default `[]`, which agrees with the source whenever
`0 ≤ rectangle.top` and `rectangle.bottom < len(rows)` (the range hypotheses
carried by the theorems below). -/
def get_berries_in_rectangle (f : Field) (rectangle : Rectangle) : List Point :=
  (intRange rectangle.top (rectangle.bottom + 1)).flatMap
    (fun i => (f.rows.getD i.toNat []).filter
      (fun berry => rectangle.containsPoint berry))

/-- `StrawberryField.num_strawberries` (field.py): for each row spanned by the
rectangle, count the berries whose column lies within its column bounds. -/
def num_strawberries (f : Field) (rectangle : Rectangle) : Nat :=
  ((intRange rectangle.top (rectangle.bottom + 1)).map
    (fun i => (f.rows.getD i.toNat []).countP
      (fun berry =>
        decide (rectangle.left ≤ berry.2) && decide (berry.2 ≤ rectangle.right)))).sum

/-- Python `min` on a list of integers, total with an unused `0` for the empty
list (every caller guards against emptiness, as the source does). -/
def listMin : List Int → Int
  | [] => 0
  | h :: t => t.foldl min h

/-- Python `max` on a list of integers, total like `listMin`. -/
def listMax : List Int → Int
  | [] => 0
  | h :: t => t.foldl max h

/-- `StrawberryField.feasible_region` (field.py): with no rectangle, the root
region; otherwise the tightest rectangle around the berries inside the given
rectangle, or `none` when it contains no berries. -/
def feasible_region (f : Field) (rectangle : Option Rectangle) : Option Rectangle :=
  match rectangle with
  | none => some f.root_region
  | some rect =>
    let berries := get_berries_in_rectangle f rect
    let b_zero := berries.map (fun b => b.1)
    let b_one := berries.map (fun b => b.2)
    if berries.isEmpty then none
    else some (make_rectangle (listMin b_zero) (listMin b_one)
      (listMax b_zero) (listMax b_one))

/-- `StrawberryField._get_rect_id` (field.py): index of the first rectangle of
the partition containing the berry, or `none`. -/
def get_rect_id (berry : Point) (partition : List Rectangle) : Option Nat :=
  partition.findIdx? (fun rect => rect.containsPoint berry)

/-- `StrawberryField.list_berries` (field.py). -/
def list_berries (f : Field) (partition : List Rectangle) : List (Point × Option Nat) :=
  (get_berries_in_rectangle f f.root_region).map
    (fun berry => (berry, get_rect_id berry partition))

/-- The invariant `__init__`/`add_row` establish: `num_rows` counts the rows,
the tracked `top` is nonnegative, the tracked `bottom` is below `num_rows`,
each stored berry carries its own row index, and every berry lies within the
tracked bounds. -/
def FieldInv (f : Field) : Prop :=
  f.num_rows = f.rows.length ∧
  0 ≤ f.top ∧
  f.bottom < (f.num_rows : Int) ∧
  (∀ i, (h : i < f.rows.length) → ∀ p ∈ f.rows[i], p.1 = (i : Int)) ∧
  (∀ p ∈ f.berries, f.top ≤ p.1 ∧ p.1 ≤ f.bottom ∧ f.left ≤ p.2 ∧ p.2 ≤ f.right)

theorem foldl_min_le_init (l : List Int) (a : Int) : l.foldl min a ≤ a := by
  induction l generalizing a with
  | nil => simp
  | cons h t ih =>
    simpa using le_trans (ih (min a h)) (min_le_left a h)

theorem foldl_min_le_mem (l : List Int) : ∀ a x : Int, x ∈ l → l.foldl min a ≤ x := by
  induction l with
  | nil => intro a x h; cases h
  | cons y t ih =>
    intro a x h
    rcases List.mem_cons.mp h with rfl | hx
    · simpa using le_trans (foldl_min_le_init t (min a x)) (min_le_right a x)
    · simpa using ih (min a y) x hx

theorem le_foldl_max_init (l : List Int) (a : Int) : a ≤ l.foldl max a := by
  induction l generalizing a with
  | nil => simp
  | cons h t ih =>
    simpa using le_trans (le_max_left a h) (ih (max a h))

theorem le_foldl_max_mem (l : List Int) : ∀ a x : Int, x ∈ l → x ≤ l.foldl max a := by
  induction l with
  | nil => intro a x h; cases h
  | cons y t ih =>
    intro a x h
    rcases List.mem_cons.mp h with rfl | hx
    · simpa using le_trans (le_max_right a x) (le_foldl_max_init t (max a x))
    · simpa using ih (max a y) x hx

theorem addRow_inv (f : Field) (row : List Bool) (hf : FieldInv f) :
    FieldInv (addRow f row) := by
  obtain ⟨hlen, htop0, hbot, hrowidx, hbounds⟩ := hf
  set cols : List Int :=
    ((List.range row.length).filter (fun i => row.getD i false)).map Int.ofNat with hcols
  refine ⟨?_, ?_, ?_, ?_, ?_⟩
  · simp [addRow, hlen, ← hcols]
  · simp only [addRow, ← hcols]
    split
    · exact htop0
    · exact le_min htop0 (by positivity)
  · simp only [addRow, ← hcols]
    split
    · push_cast
      omega
    · push_cast
      simp only [max_lt_iff]
      constructor <;> omega
  · intro i h p hp
    simp only [addRow, ← hcols, List.length_append, List.length_singleton] at h hp
    by_cases hi : i < f.rows.length
    · rw [List.getElem_append_left hi] at hp
      exact hrowidx i hi p hp
    · have hieq : i = f.rows.length := by omega
      subst hieq
      rw [List.getElem_append_right (le_refl _)] at hp
      simp only [Nat.sub_self, List.getElem_singleton, List.mem_map] at hp
      obtain ⟨c, _, rfl⟩ := hp
      simp [hlen]
  · intro p hp
    simp only [addRow, ← hcols, Field.berries, List.flatten_append, List.mem_append,
      List.flatten_cons, List.flatten_nil, List.append_nil] at hp
    simp only [addRow, ← hcols]
    rcases hp with hp | hp
    · have hb := hbounds p hp
      refine ⟨?_, ?_, ?_, ?_⟩
      · split
        · exact hb.1
        · exact le_trans (min_le_left _ _) hb.1
      · split
        · exact hb.2.1
        · exact le_trans hb.2.1 (le_max_left _ _)
      · exact le_trans (foldl_min_le_init cols f.left) hb.2.2.1
      · exact le_trans hb.2.2.2 (le_foldl_max_init cols f.right)
    · simp only [List.mem_map] at hp
      obtain ⟨c, hc, rfl⟩ := hp
      have hne : cols ≠ [] := List.ne_nil_of_mem hc
      refine ⟨?_, ?_, ?_, ?_⟩
      · rw [if_neg hne]
        exact min_le_right _ _
      · rw [if_neg hne]
        exact le_max_right _ _
      · exact foldl_min_le_mem cols f.left c hc
      · exact le_foldl_max_mem cols f.right c hc

theorem foldl_addRow_inv (data : List (List Bool)) (f : Field) (hf : FieldInv f) :
    FieldInv (data.foldl addRow f) := by
  induction data generalizing f with
  | nil => exact hf
  | cons r t ih => exact ih (addRow f r) (addRow_inv f r hf)

theorem mkField_inv (maxG : Nat) (data : List (List Bool)) :
    FieldInv (mkField maxG data) := by
  refine foldl_addRow_inv data _ ⟨rfl, by norm_num [sysMaxsize], by norm_num, ?_, ?_⟩
  · intro i h
    simp at h
  · intro p hp
    simp [Field.berries] at hp

theorem berries_in_root (f : Field) (hf : FieldInv f) (p : Point) (hp : p ∈ f.berries) :
    f.root_region.containsPoint p = true := by
  have hb := hf.2.2.2.2 p hp
  simp only [Field.root_region, make_rectangle, Rectangle.containsPoint,
    Bool.and_eq_true, decide_eq_true_eq]
  exact ⟨⟨⟨hb.1, hb.2.1⟩, hb.2.2.1⟩, hb.2.2.2⟩

theorem mem_get_berries (f : Field) (hf : FieldInv f) (rect : Rectangle) (p : Point) :
    p ∈ get_berries_in_rectangle f rect ↔
      p ∈ f.berries ∧ rect.containsPoint p = true := by
  obtain ⟨hlen, htop0, hbot, hrowidx, hbounds⟩ := hf
  constructor
  · intro hp
    simp only [get_berries_in_rectangle, List.mem_flatMap, List.mem_filter] at hp
    obtain ⟨i, _, hmem, hcont⟩ := hp
    refine ⟨?_, hcont⟩
    by_cases hi : i.toNat < f.rows.length
    · rw [List.getD_eq_getElem f.rows [] hi] at hmem
      exact List.mem_flatten.mpr ⟨f.rows[i.toNat], List.getElem_mem hi, hmem⟩
    · rw [List.getD_eq_default f.rows [] (by omega)] at hmem
      cases hmem
  · rintro ⟨hp, hcont⟩
    obtain ⟨l, hl, hpl⟩ := List.mem_flatten.mp hp
    obtain ⟨i, hi, rfl⟩ := List.mem_iff_getElem.mp hl
    have hrow := hrowidx i hi p hpl
    simp only [Rectangle.containsPoint, Bool.and_eq_true, decide_eq_true_eq] at hcont
    simp only [get_berries_in_rectangle, List.mem_flatMap]
    refine ⟨(i : Int), (mem_intRange _ _ _).mpr ⟨by omega, by omega⟩, ?_⟩
    rw [List.mem_filter]
    have : ((i : Int)).toNat = i := by omega
    rw [this, List.getD_eq_getElem f.rows [] hi]
    refine ⟨hpl, ?_⟩
    simp only [Rectangle.containsPoint, Bool.and_eq_true, decide_eq_true_eq]
    exact hcont

/-- `get_score` (solve_problems.py): the sum of member costs. -/
def get_score (partition : List Rectangle) : Int :=
  (partition.map (fun r => r.cost)).sum

/-- `BestSolution` (solve_problems.py): holder for the best solution so far.
`__init__` sets `_solution = None` and `_score = sys.maxsize`. -/
structure BestSolution where
  _solution : Option (List Rectangle)
  _score : Int
  deriving DecidableEq, Repr

/-- `BestSolution.__init__`. -/
def BestSolution.init : BestSolution :=
  { _solution := none, _score := sysMaxsize }

/-- `BestSolution.store`: keep the candidate only if it scores strictly lower
than the stored score and its cardinality is within the goal. -/
def BestSolution.store (bs : BestSolution) (candidate : List Rectangle)
    (score : Int) (goal : Nat) : BestSolution :=
  if score < bs._score ∧ candidate.length ≤ goal then
    { _solution := some candidate, _score := score }
  else bs

/-- A sequence of `store` calls with a fixed goal (specification-side helper
for stating the tracker invariant). -/
def runStores (goal : Nat) (bs : BestSolution)
    (calls : List (List Rectangle × Int)) : BestSolution :=
  calls.foldl (fun b c => b.store c.1 c.2 goal) bs

theorem store_score_le (bs : BestSolution) (c : List Rectangle) (sc : Int)
    (goal : Nat) : (bs.store c sc goal)._score ≤ bs._score := by
  unfold BestSolution.store
  split
  · next h => exact le_of_lt h.1
  · exact le_refl _

theorem store_solution_card (bs : BestSolution) (c : List Rectangle) (sc : Int)
    (goal : Nat) (hbs : ∀ s, bs._solution = some s → s.length ≤ goal) :
    ∀ s, (bs.store c sc goal)._solution = some s → s.length ≤ goal := by
  intro s hs
  unfold BestSolution.store at hs
  split at hs
  · next h =>
    simp only [Option.some.injEq] at hs
    subst hs
    exact h.2
  · exact hbs s hs

theorem runStores_score_le (goal : Nat) (bs : BestSolution)
    (calls : List (List Rectangle × Int)) :
    (runStores goal bs calls)._score ≤ bs._score := by
  induction calls generalizing bs with
  | nil => exact le_refl _
  | cons c t ih =>
    exact le_trans (ih (bs.store c.1 c.2 goal)) (store_score_le bs c.1 c.2 goal)

theorem runStores_solution_card (goal : Nat) (bs : BestSolution)
    (calls : List (List Rectangle × Int))
    (hbs : ∀ s, bs._solution = some s → s.length ≤ goal) :
    ∀ s, (runStores goal bs calls)._solution = some s → s.length ≤ goal := by
  induction calls generalizing bs with
  | nil => exact hbs
  | cons c t ih =>
    exact ih (bs.store c.1 c.2 goal) (store_solution_card bs c.1 c.2 goal hbs)

/-- Claim C3: `BestSolution.store` replaces the stored solution only when the
candidate's score is strictly lower and its cardinality is at most the goal;
consequently, over any sequence of store calls from the initial state, the
stored solution (once set) has cardinality at most the goal, and the stored
score never increases under further store calls. -/
theorem claim_C3 (goal : Nat) (calls calls2 : List (List Rectangle × Int)) :
    (∀ s, (runStores goal BestSolution.init calls)._solution = some s →
      s.length ≤ goal) ∧
    (runStores goal (runStores goal BestSolution.init calls) calls2)._score ≤
      (runStores goal BestSolution.init calls)._score ∧
    (∀ bs : BestSolution, ∀ c sc,
      (bs.store c sc goal)._solution ≠ bs._solution →
        sc < bs._score ∧ c.length ≤ goal) := by
  refine ⟨?_, runStores_score_le goal _ calls2, ?_⟩
  · exact runStores_solution_card goal BestSolution.init calls
      (by intro s hs; cases hs)
  · intro bs c sc hns
    by_cases h : sc < bs._score ∧ c.length ≤ goal
    · exact h
    · exfalso
      apply hns
      unfold BestSolution.store
      rw [if_neg h]

/-- Witness for C3 at a concrete sequence of store calls. -/
theorem claim_C3_witness :
    [make_rectangle 0 0 0 0].length ≤ 2 ∧
    (runStores 2 (runStores 2 BestSolution.init [([make_rectangle 0 0 0 0], 11)])
      [([make_rectangle 1 1 2 2], 50)])._score ≤
      (runStores 2 BestSolution.init [([make_rectangle 0 0 0 0], 11)])._score ∧
    (11 < BestSolution.init._score ∧ [make_rectangle 0 0 0 0].length ≤ 2) := by
  have h := claim_C3 2 [([make_rectangle 0 0 0 0], 11)] [([make_rectangle 1 1 2 2], 50)]
  exact ⟨h.1 [make_rectangle 0 0 0 0] (by decide), h.2.1,
    h.2.2 BestSolution.init [make_rectangle 0 0 0 0] 11 (by decide)⟩

/-- `MAX_SUCCESSORS` (solve_problems.py). -/
def MAX_SUCCESSORS : Nat := 100

/-- `pairs` (solve_problems.py): all unordered pairs of list positions, in
`itertools.combinations` order.  `random.shuffle` only permutes the order in
which the pairs are produced; it is modelled by the identity permutation, and
the theorems below quantify over arbitrary list orders. -/
def pairsOf {α : Type} : List α → List (α × α)
  | [] => []
  | x :: xs => xs.map (fun y => (x, y)) ++ pairsOf xs

/-- The bounding-box disjointness test used by `successors_by_agglomeration`
and `combine_and_maintain_density` (solve_problems.py): the loop `continue`s
(does not count) exactly when the boxes are disjoint, so `greenhouse` is
counted when this predicate is true. -/
def intersectsB (greenhouse new_house : Rectangle) : Bool :=
  !(decide (greenhouse.bottom < new_house.top) ||
    decide (greenhouse.top > new_house.bottom) ||
    decide (greenhouse.right < new_house.left) ||
    decide (greenhouse.left > new_house.right))

/-- The `count_overlaps` loop (solve_problems.py): count the rectangles of the
partition whose bounding box intersects `new_house`, stopping the count once
it exceeds 2 (the early `break`). -/
def count_overlaps (partition : List Rectangle) (new_house : Rectangle) : Nat :=
  partition.foldl (fun n greenhouse =>
    if 2 < n then n
    else if intersectsB greenhouse new_house then n + 1 else n) 0

theorem count_foldl_eq (new_house : Rectangle) (l : List Rectangle) :
    ∀ n : Nat, n ≤ 3 →
      l.foldl (fun n g =>
          if 2 < n then n
          else if intersectsB g new_house then n + 1 else n) n =
        min (n + l.countP (fun g => intersectsB g new_house)) 3 := by
  induction l with
  | nil =>
    intro n hn
    simp
    omega
  | cons g t ih =>
    intro n hn
    simp only [List.foldl_cons, List.countP_cons]
    by_cases h3 : 2 < n
    · rw [if_pos h3, ih n hn]
      by_cases hpg : intersectsB g new_house = true <;> simp [hpg] <;> omega
    · rw [if_neg h3]
      by_cases hpg : intersectsB g new_house = true
      · rw [if_pos hpg, ih (n + 1) (by omega)]
        simp [hpg]
        omega
      · rw [if_neg hpg, ih n hn]
        simp [hpg]

theorem count_overlaps_eq (partition : List Rectangle) (new_house : Rectangle) :
    count_overlaps partition new_house =
      min (partition.countP (fun g => intersectsB g new_house)) 3 := by
  simpa using count_foldl_eq new_house partition 0 (by norm_num)

theorem count_overlaps_eq_two (partition : List Rectangle) (new_house : Rectangle) :
    count_overlaps partition new_house = 2 ↔
      partition.countP (fun g => intersectsB g new_house) = 2 := by
  rw [count_overlaps_eq]
  omega

/-- The merge-acceptance test of `successors_by_agglomeration`
(solve_problems.py): a pair's merge is kept exactly when `count_overlaps == 2`. -/
def successorValid (greenhouse_list : List Rectangle) (house1 house2 : Rectangle) : Bool :=
  count_overlaps greenhouse_list (merge_rectangles house1 house2) == 2

/-- The merge-acceptance test of `combine_and_maintain_density`
(solve_problems.py): the pair is merged when the merged rectangle's berry
count equals its area ("density preserved") and the same locality test as in
the agglomeration search passes. -/
def density_merge_ok (f : Field) (partition : List Rectangle)
    (first second : Rectangle) : Bool :=
  (decide ((num_strawberries f (merge_rectangles first second) : Int) =
    (merge_rectangles first second).area)) &&
  (count_overlaps partition (merge_rectangles first second) == 2)

/-- Rectangles whose bounds describe a nonempty cell range, as holds for every
rectangle the program derives from actual points of the field. -/
def ProperRect (h : Rectangle) : Prop :=
  h.top ≤ h.bottom ∧ h.left ≤ h.right

theorem self_intersects_merge (h1 h2 : Rectangle) (hp : ProperRect h1) :
    intersectsB h1 (merge_rectangles h1 h2) = true := by
  obtain ⟨hp1, hp2⟩ := hp
  have ht : (merge_rectangles h1 h2).top = min h1.top h2.top := merge_top h1 h2
  have hb : (merge_rectangles h1 h2).bottom = max h1.bottom h2.bottom := merge_bottom h1 h2
  have hl : (merge_rectangles h1 h2).left = min h1.left h2.left := merge_left h1 h2
  have hr : (merge_rectangles h1 h2).right = max h1.right h2.right := merge_right h1 h2
  simp only [intersectsB, Bool.not_eq_true', Bool.or_eq_false_iff,
    decide_eq_false_iff_not, not_lt]
  omega

theorem self_intersects_merge_right (h1 h2 : Rectangle) (hp : ProperRect h2) :
    intersectsB h2 (merge_rectangles h1 h2) = true := by
  have : merge_rectangles h1 h2 = merge_rectangles h2 h1 := merge_comm h1 h2
  rw [this]
  exact self_intersects_merge h2 h1 hp

theorem countP_two_iff (l : List Rectangle) (h1 h2 : Rectangle)
    (p : Rectangle → Bool) (hm1 : h1 ∈ l) (hm2 : h2 ∈ l.erase h1)
    (hp1 : p h1 = true) (hp2 : p h2 = true) :
    l.countP p = 2 ↔ ∀ g ∈ (l.erase h1).erase h2, p g = false := by
  have e1 : l.countP p = (l.erase h1).countP p + 1 := by
    rw [(List.perm_cons_erase hm1).countP_eq p, List.countP_cons, hp1]
    simp
  have e2 : (l.erase h1).countP p = ((l.erase h1).erase h2).countP p + 1 := by
    rw [(List.perm_cons_erase hm2).countP_eq p, List.countP_cons, hp2]
    simp
  rw [e1, e2]
  constructor
  · intro h g hg
    have hz : ((l.erase h1).erase h2).countP p = 0 := by omega
    have := List.countP_eq_zero.mp hz g hg
    simpa using this
  · intro h
    have hz : ((l.erase h1).erase h2).countP p = 0 :=
      List.countP_eq_zero.mpr (fun g hg => by simp [h g hg])
    omega

/-- Claim C2: in the agglomeration search, the merge of a pair `(h1, h2)` of
members of a partition is accepted exactly when exactly two rectangles of the
partition intersect the bounding box of `merge(h1, h2)` — those two being
`h1` and `h2` themselves, i.e. no third member intersects it; the same
locality test is applied during density consolidation, whose acceptance
additionally requires the merged rectangle's berry count to equal its area. -/
theorem claim_C2 (greenhouse_list : List Rectangle) (house1 house2 : Rectangle)
    (hp1 : ProperRect house1) (hp2 : ProperRect house2)
    (hm1 : house1 ∈ greenhouse_list)
    (hm2 : house2 ∈ greenhouse_list.erase house1) :
    (successorValid greenhouse_list house1 house2 = true ↔
      (greenhouse_list.countP
          (fun g => intersectsB g (merge_rectangles house1 house2)) = 2 ∧
        intersectsB house1 (merge_rectangles house1 house2) = true ∧
        intersectsB house2 (merge_rectangles house1 house2) = true ∧
        ∀ g ∈ (greenhouse_list.erase house1).erase house2,
          intersectsB g (merge_rectangles house1 house2) = false)) ∧
    ∀ f : Field, density_merge_ok f greenhouse_list house1 house2 = true ↔
      ((num_strawberries f (merge_rectangles house1 house2) : Int) =
          (merge_rectangles house1 house2).area ∧
        ∀ g ∈ (greenhouse_list.erase house1).erase house2,
          intersectsB g (merge_rectangles house1 house2) = false) := by
  have hi1 := self_intersects_merge house1 house2 hp1
  have hi2 := self_intersects_merge_right house1 house2 hp2
  have hcnt := countP_two_iff greenhouse_list house1 house2
    (fun g => intersectsB g (merge_rectangles house1 house2)) hm1 hm2 hi1 hi2
  constructor
  · unfold successorValid
    rw [beq_iff_eq, count_overlaps_eq_two]
    constructor
    · intro h
      exact ⟨h, hi1, hi2, hcnt.mp h⟩
    · intro h
      exact h.1
  · intro f
    unfold density_merge_ok
    rw [Bool.and_eq_true, beq_iff_eq, count_overlaps_eq_two, decide_eq_true_eq, hcnt]

/-- Witness for C2 at a concrete partition, pair and field. -/
theorem claim_C2_witness :
    (successorValid [make_rectangle 0 0 0 0, make_rectangle 1 0 1 0] (make_rectangle 0 0 0 0)
        (make_rectangle 1 0 1 0) = true ↔
      ([make_rectangle 0 0 0 0, make_rectangle 1 0 1 0].countP
          (fun g => intersectsB g
            (merge_rectangles (make_rectangle 0 0 0 0) (make_rectangle 1 0 1 0))) = 2 ∧
        intersectsB (make_rectangle 0 0 0 0)
          (merge_rectangles (make_rectangle 0 0 0 0) (make_rectangle 1 0 1 0)) = true ∧
        intersectsB (make_rectangle 1 0 1 0)
          (merge_rectangles (make_rectangle 0 0 0 0) (make_rectangle 1 0 1 0)) = true ∧
        ∀ g ∈ ([make_rectangle 0 0 0 0, make_rectangle 1 0 1 0].erase
            (make_rectangle 0 0 0 0)).erase (make_rectangle 1 0 1 0),
          intersectsB g
            (merge_rectangles (make_rectangle 0 0 0 0) (make_rectangle 1 0 1 0)) = false)) ∧
    successorValid [make_rectangle 0 0 0 0, make_rectangle 1 0 1 0] (make_rectangle 0 0 0 0)
      (make_rectangle 1 0 1 0) = true := by
  have h := claim_C2 [make_rectangle 0 0 0 0, make_rectangle 1 0 1 0]
    (make_rectangle 0 0 0 0) (make_rectangle 1 0 1 0)
    (by constructor <;> decide) (by constructor <;> decide) (by decide) (by decide)
  exact ⟨h.1, by decide⟩

/-- Claim C5: the incrementally computed score
`get_score(P) - cost(h1) - cost(h2) + cost(merge(h1,h2))` equals `get_score`
recomputed on the successor partition obtained by removing `h1` and `h2` from
`P` and appending `merge(h1,h2)`. -/
theorem claim_C5 (P : List Rectangle) (house1 house2 : Rectangle)
    (hm1 : house1 ∈ P) (hm2 : house2 ∈ P.erase house1) :
    get_score (((P.erase house1).erase house2) ++ [merge_rectangles house1 house2]) =
      get_score P - house1.cost - house2.cost + (merge_rectangles house1 house2).cost := by
  have s1 : get_score P = house1.cost + get_score (P.erase house1) := by
    unfold get_score
    rw [((List.perm_cons_erase hm1).map (fun r => r.cost)).sum_eq]
    simp
  have s2 : get_score (P.erase house1) =
      house2.cost + get_score ((P.erase house1).erase house2) := by
    unfold get_score
    rw [((List.perm_cons_erase hm2).map (fun r => r.cost)).sum_eq]
    simp
  unfold get_score at s1 s2 ⊢
  rw [List.map_append, List.sum_append]
  simp only [List.map_cons, List.map_nil, List.sum_cons, List.sum_nil]
  omega

/-- Witness for C5 at a concrete partition and pair. -/
theorem claim_C5_witness :
    get_score ((([make_rectangle 0 0 0 0, make_rectangle 2 2 3 3].erase
          (make_rectangle 0 0 0 0)).erase (make_rectangle 2 2 3 3)) ++
        [merge_rectangles (make_rectangle 0 0 0 0) (make_rectangle 2 2 3 3)]) =
      get_score [make_rectangle 0 0 0 0, make_rectangle 2 2 3 3] -
        (make_rectangle 0 0 0 0).cost - (make_rectangle 2 2 3 3).cost +
        (merge_rectangles (make_rectangle 0 0 0 0) (make_rectangle 2 2 3 3)).cost :=
  claim_C5 [make_rectangle 0 0 0 0, make_rectangle 2 2 3 3]
    (make_rectangle 0 0 0 0) (make_rectangle 2 2 3 3) (by decide) (by decide)

/-- A successor partition as a `frozenset` of rectangles
(`successors_by_agglomeration` freezes each successor list with `frozenset`
before adding it to the successor set). -/
def frozen (partition : List Rectangle) : Finset Rectangle := partition.toFinset

/-- The inner pair loop of `successors_by_agglomeration` (solve_problems.py)
over one candidate partition, carrying the current best score and successor
set.  The set of frozensets is modelled as a list of duplicate-free
rectangle lists (each one an enumeration of its frozenset), with membership
tested by unordered rectangle-set (`frozen`) equality.  A strictly better
score resets the set to a singleton; an equal score adds the successor and
`break`s (returns) once the set reaches `MAX_SUCCESSORS`. -/
def runPairs (greenhouse_list : List Rectangle) (base_score : Int) :
    List (Rectangle × Rectangle) → Int → List (List Rectangle) →
      Int × List (List Rectangle)
  | [], best_score, successors => (best_score, successors)
  | (house1, house2) :: rest, best_score, successors =>
    let new_house := merge_rectangles house1 house2
    if count_overlaps greenhouse_list new_house = 2 then
      let successor := ((greenhouse_list.erase house1).erase house2) ++ [new_house]
      let score := base_score - house1.cost - house2.cost + new_house.cost
      if score < best_score then
        runPairs greenhouse_list base_score rest score [successor.dedup]
      else if score = best_score then
        let s := if frozen successor ∈ successors.map frozen then successors
          else successors ++ [successor.dedup]
        if MAX_SUCCESSORS ≤ s.length then (best_score, s)
        else runPairs greenhouse_list base_score rest best_score s
      else runPairs greenhouse_list base_score rest best_score successors
    else runPairs greenhouse_list base_score rest best_score successors

/-- The outer loop of `successors_by_agglomeration` over the candidate
partitions: stop as soon as the successor set has reached `MAX_SUCCESSORS`,
otherwise process the partition's pairs (at base score `get_score`). -/
def runPartitions :
    List (List Rectangle) → Int → List (List Rectangle) →
      Int × List (List Rectangle)
  | [], best_score, successors => (best_score, successors)
  | greenhouse_list :: rest, best_score, successors =>
    if MAX_SUCCESSORS ≤ successors.length then (best_score, successors)
    else
      let r := runPairs greenhouse_list (get_score greenhouse_list)
        (pairsOf greenhouse_list) best_score successors
      runPartitions rest r.1 r.2

/-- `successors_by_agglomeration` (solve_problems.py): best score starts at
`sys.maxsize`, the successor set starts empty; at the end the set of
frozensets is converted back to a list of rectangle lists (already the
representation used here).  The over-capacity branch calls
`random.sample(result, MAX_SUCCESSORS)`, modelled as taking the first
`MAX_SUCCESSORS` entries. -/
def successors_by_agglomeration (partitions : List (List Rectangle)) :
    Int × List (List Rectangle) :=
  let r := runPartitions partitions sysMaxsize []
  let result := r.2
  if MAX_SUCCESSORS < result.length then (r.1, result.take MAX_SUCCESSORS)
  else (r.1, result)

/-- The `while True` loop of `agglomerate` (solve_problems.py), with explicit
fuel.  Every successor produced by a round has cardinality strictly below its
parent's (claim C4), so `partition.length + 1` rounds always suffice at the
call site; the claims below use only properties independent of the fuel. -/
def agglomerateLoop (maximum_greenhouses goal : Nat) :
    Nat → List (List Rectangle) → Nat → BestSolution → BestSolution
  | 0, _, _, best_solution => best_solution
  | fuel + 1, successors, num_greenhouses, best_solution =>
    if num_greenhouses ≤ goal then best_solution
    else
      let r := successors_by_agglomeration successors
      if r.2 = [] then best_solution
      else
        agglomerateLoop maximum_greenhouses goal fuel r.2
          (r.2.headD []).length
          (best_solution.store (r.2.headD []) r.1 maximum_greenhouses)

/-- `agglomerate` (solve_problems.py): seed the tracker with the initial
partition and its score, run the loop, and return the (possibly absent)
tracked solution in a one-element list.  The field is only consulted for
`maximum_greenhouses`, passed here as a plain argument. -/
def agglomerate (maximum_greenhouses : Nat) (partition : List Rectangle)
    (goal : Nat) : List (Option (List Rectangle)) :=
  let best_solution := BestSolution.init.store partition (get_score partition)
    maximum_greenhouses
  let final := agglomerateLoop maximum_greenhouses goal (partition.length + 1)
    [partition] partition.length best_solution
  [final._solution]

theorem pairsOf_mem {α : Type} [DecidableEq α] (l : List α) (a b : α)
    (h : (a, b) ∈ pairsOf l) : a ∈ l ∧ b ∈ l.erase a := by
  induction l with
  | nil => cases h
  | cons x xs ih =>
    simp only [pairsOf, List.mem_append, List.mem_map] at h
    rcases h with ⟨y, hy, he⟩ | h
    · obtain ⟨rfl, rfl⟩ := Prod.mk.injEq x y a b ▸ he
      exact ⟨List.mem_cons_self x xs, by rw [List.erase_cons_head]; exact hy⟩
    · obtain ⟨ha, hb⟩ := ih h
      refine ⟨List.mem_cons_of_mem x ha, ?_⟩
      rw [List.erase_cons]
      split
      · exact List.mem_of_mem_erase hb
      · exact List.mem_cons_of_mem x hb

theorem exists_pair_cover (gl : List Rectangle) (house1 house2 : Rectangle) :
    house1 ∈ gl → house2 ∈ gl.erase house1 →
      ∃ a b, (a, b) ∈ pairsOf gl ∧
        merge_rectangles a b = merge_rectangles house1 house2 ∧
        a.cost + b.cost = house1.cost + house2.cost := by
  induction gl with
  | nil => intro h; cases h
  | cons x xs ih =>
    intro hm1 hm2
    by_cases hx1 : x = house1
    · subst hx1
      rw [List.erase_cons_head] at hm2
      refine ⟨x, house2, ?_, rfl, rfl⟩
      simp only [pairsOf, List.mem_append, List.mem_map]
      exact Or.inl ⟨house2, hm2, rfl⟩
    · have hm1' : house1 ∈ xs := by
        rcases List.mem_cons.mp hm1 with h | h
        · exact absurd h.symm hx1
        · exact h
      rw [List.erase_cons, if_neg (by simpa using hx1)] at hm2
      rcases List.mem_cons.mp hm2 with rfl | hm2'
      · refine ⟨house2, house1, ?_, merge_comm house2 house1, by omega⟩
        simp only [pairsOf, List.mem_append, List.mem_map]
        exact Or.inl ⟨house1, hm1', rfl⟩
      · obtain ⟨a, b, hab, hm, hc⟩ := ih hm1' hm2'
        refine ⟨a, b, ?_, hm, hc⟩
        simp only [pairsOf, List.mem_append]
        exact Or.inr hab

theorem runPartitions_stuck (ps : List (List Rectangle)) (best : Int)
    (succ : List (List Rectangle)) (h : MAX_SUCCESSORS ≤ succ.length) :
    runPartitions ps best succ = (best, succ) := by
  cases ps with
  | nil => rfl
  | cons g rest => simp only [runPartitions, if_pos h]

theorem runPairs_best_le (gl : List Rectangle) (base : Int)
    (prs : List (Rectangle × Rectangle)) :
    ∀ best succ, (runPairs gl base prs best succ).1 ≤ best := by
  induction prs with
  | nil =>
    intro best succ
    exact le_refl _
  | cons pr rest ih =>
    intro best succ
    obtain ⟨h1, h2⟩ := pr
    simp only [runPairs]
    split
    · split
      · next hlt =>
        exact le_trans (ih _ _) (le_of_lt hlt)
      · split
        · split
          · split
            · exact le_refl _
            · exact ih _ _
          · split
            · exact le_refl _
            · exact ih _ _
        · exact ih _ _
    · exact ih _ _

theorem runPartitions_best_le (ps : List (List Rectangle)) :
    ∀ best succ, (runPartitions ps best succ).1 ≤ best := by
  induction ps with
  | nil =>
    intro best succ
    exact le_refl _
  | cons g rest ih =>
    intro best succ
    simp only [runPartitions]
    split
    · exact le_refl _
    · exact le_trans (ih _ _) (runPairs_best_le g (get_score g) (pairsOf g) best succ)

theorem runPairs_length (gl : List Rectangle) (base : Int)
    (prs : List (Rectangle × Rectangle)) :
    ∀ best succ, succ.length < MAX_SUCCESSORS →
      (runPairs gl base prs best succ).2.length ≤ MAX_SUCCESSORS := by
  induction prs with
  | nil =>
    intro best succ h
    exact le_of_lt h
  | cons pr rest ih =>
    intro best succ h
    obtain ⟨h1, h2⟩ := pr
    simp only [runPairs]
    split
    · split
      · refine ih _ _ ?_
        simp [MAX_SUCCESSORS]
      · split
        · split
          · split
            · exact le_of_lt h
            · exact ih _ _ h
          · split
            · next hfull =>
              simp only [List.length_append, List.length_singleton] at hfull ⊢
              omega
            · next hfull =>
              refine ih _ _ ?_
              simp only [List.length_append, List.length_singleton] at hfull ⊢
              omega
        · exact ih _ _ h
    · exact ih _ _ h

theorem runPartitions_length (ps : List (List Rectangle)) :
    ∀ best succ, succ.length ≤ MAX_SUCCESSORS →
      (runPartitions ps best succ).2.length ≤ MAX_SUCCESSORS := by
  induction ps with
  | nil =>
    intro best succ h
    exact h
  | cons g rest ih =>
    intro best succ h
    simp only [runPartitions]
    split
    · exact h
    · next hfull =>
      exact ih _ _ (runPairs_length g (get_score g) (pairsOf g) best succ (by omega))

theorem runPartitions_stuck_snd (ps : List (List Rectangle)) (best : Int)
    (succ : List (List Rectangle)) (h : MAX_SUCCESSORS ≤ succ.length) :
    (runPartitions ps best succ).2 = succ := by
  rw [runPartitions_stuck ps best succ h]

/-- Provenance of a successor-set member: it is the (frozenset-deduplicated)
successor obtained from an allowed partition by removing a valid pair and
appending its merge, and its incrementally computed score equals `b`. -/
def Prov (Q : List Rectangle → Prop) (s : List Rectangle) (b : Int) : Prop :=
  ∃ gl, Q gl ∧ ∃ house1 house2, house1 ∈ gl ∧ house2 ∈ gl.erase house1 ∧
    count_overlaps gl (merge_rectangles house1 house2) = 2 ∧
    s = (((gl.erase house1).erase house2) ++ [merge_rectangles house1 house2]).dedup ∧
    get_score gl - house1.cost - house2.cost + (merge_rectangles house1 house2).cost = b

theorem runPairs_prov (Q : List Rectangle → Prop) (gl : List Rectangle) (hQ : Q gl)
    (prs : List (Rectangle × Rectangle))
    (hprs : ∀ a b, (a, b) ∈ prs → a ∈ gl ∧ b ∈ gl.erase a) :
    ∀ best succ, (∀ s ∈ succ, Prov Q s best) →
      ∀ s ∈ (runPairs gl (get_score gl) prs best succ).2,
        Prov Q s (runPairs gl (get_score gl) prs best succ).1 := by
  induction prs with
  | nil =>
    intro best succ h
    exact h
  | cons pr rest ih =>
    intro best succ hsucc
    obtain ⟨h1, h2⟩ := pr
    have hmem := hprs h1 h2 (List.mem_cons_self _ _)
    have hrest : ∀ a b, (a, b) ∈ rest → a ∈ gl ∧ b ∈ gl.erase a :=
      fun a b h => hprs a b (List.mem_cons_of_mem _ h)
    simp only [runPairs]
    split
    · next hcount =>
      split
      · next hlt =>
        refine ih hrest _ _ ?_
        intro s hs
        rw [List.mem_singleton] at hs
        subst hs
        exact ⟨gl, hQ, h1, h2, hmem.1, hmem.2, hcount, rfl, rfl⟩
      · next hnlt =>
        split
        · next heq =>
          split
          · split
            · exact hsucc
            · exact ih hrest _ _ hsucc
          · have hadd : ∀ s ∈ succ ++ [(((gl.erase h1).erase h2) ++
                [merge_rectangles h1 h2]).dedup],
                Prov Q s best := by
              intro s hs
              rcases List.mem_append.mp hs with hs | hs
              · exact hsucc s hs
              · rw [List.mem_singleton] at hs
                subst hs
                exact ⟨gl, hQ, h1, h2, hmem.1, hmem.2, hcount, rfl, heq⟩
            split
            · exact hadd
            · exact ih hrest _ _ hadd
        · exact ih hrest _ _ hsucc
    · exact ih hrest _ _ hsucc

theorem runPartitions_prov (Q : List Rectangle → Prop) (ps : List (List Rectangle))
    (hQ : ∀ gl ∈ ps, Q gl) :
    ∀ best succ, (∀ s ∈ succ, Prov Q s best) →
      ∀ s ∈ (runPartitions ps best succ).2, Prov Q s (runPartitions ps best succ).1 := by
  induction ps with
  | nil =>
    intro best succ h
    exact h
  | cons g rest ih =>
    intro best succ hsucc
    simp only [runPartitions]
    split
    · exact hsucc
    · exact ih (fun gl hgl => hQ gl (List.mem_cons_of_mem _ hgl)) _ _
        (runPairs_prov Q g (hQ g (List.mem_cons_self _ _)) (pairsOf g)
          (fun a b h => pairsOf_mem g a b h) best succ hsucc)

theorem successors_fst (ps : List (List Rectangle)) :
    (successors_by_agglomeration ps).1 = (runPartitions ps sysMaxsize []).1 := by
  simp only [successors_by_agglomeration]
  split <;> rfl

theorem successors_snd_length (ps : List (List Rectangle)) :
    (successors_by_agglomeration ps).2.length =
      min (runPartitions ps sysMaxsize []).2.length MAX_SUCCESSORS := by
  simp only [successors_by_agglomeration]
  split
  · next hgt =>
    show (List.take MAX_SUCCESSORS (runPartitions ps sysMaxsize []).2).length = _
    rw [List.length_take]
    omega
  · next hle =>
    show (runPartitions ps sysMaxsize []).2.length = _
    omega

theorem successors_subset (ps : List (List Rectangle)) :
    ∀ s ∈ (successors_by_agglomeration ps).2, s ∈ (runPartitions ps sysMaxsize []).2 := by
  simp only [successors_by_agglomeration]
  split
  · exact fun s hs => List.take_subset _ _ hs
  · exact fun s hs => hs

theorem successors_prov (ps : List (List Rectangle)) :
    ∀ s ∈ (successors_by_agglomeration ps).2,
      Prov (fun gl => gl ∈ ps) s (successors_by_agglomeration ps).1 := by
  intro s hs
  rw [successors_fst]
  exact runPartitions_prov (fun gl => gl ∈ ps) ps (fun _ hg => hg)
    sysMaxsize [] (by intro t ht; cases ht) s (successors_subset ps s hs)

theorem runPairs_nodupFrozen (gl : List Rectangle) (base : Int)
    (prs : List (Rectangle × Rectangle)) :
    ∀ best succ, (succ.map frozen).Nodup →
      ((runPairs gl base prs best succ).2.map frozen).Nodup := by
  induction prs with
  | nil =>
    intro best succ h
    exact h
  | cons pr rest ih =>
    intro best succ h
    obtain ⟨h1, h2⟩ := pr
    simp only [runPairs]
    split
    · split
      · exact ih _ _ (by simp)
      · split
        · split
          · split
            · exact h
            · exact ih _ _ h
          · next hmem =>
            have happ : (((succ ++ [(((gl.erase h1).erase h2) ++
                [merge_rectangles h1 h2]).dedup])).map frozen).Nodup := by
              rw [List.map_append, List.map_singleton]
              refine List.Nodup.append h (List.nodup_singleton _) ?_
              intro a ha hb
              rw [List.mem_singleton] at hb
              subst hb
              refine hmem ?_
              have hfd : frozen ((((gl.erase h1).erase h2) ++
                  [merge_rectangles h1 h2]).dedup) =
                  frozen (((gl.erase h1).erase h2) ++ [merge_rectangles h1 h2]) := by
                unfold frozen
                ext a
                simp [List.mem_toFinset, List.mem_dedup]
              rw [← hfd]
              exact ha
            split
            · exact happ
            · exact ih _ _ happ
        · exact ih _ _ h
    · exact ih _ _ h

theorem runPartitions_nodupFrozen (ps : List (List Rectangle)) :
    ∀ best succ, (succ.map frozen).Nodup →
      ((runPartitions ps best succ).2.map frozen).Nodup := by
  induction ps with
  | nil =>
    intro best succ h
    exact h
  | cons g rest ih =>
    intro best succ h
    simp only [runPartitions]
    split
    · exact h
    · exact ih _ _ (runPairs_nodupFrozen g (get_score g) (pairsOf g) best succ h)

theorem successors_nodupFrozen (ps : List (List Rectangle)) :
    (((successors_by_agglomeration ps).2).map frozen).Nodup := by
  have h := runPartitions_nodupFrozen ps sysMaxsize [] (by simp)
  simp only [successors_by_agglomeration]
  split
  · show ((List.take MAX_SUCCESSORS (runPartitions ps sysMaxsize []).2).map frozen).Nodup
    rw [List.map_take]
    exact h.sublist (List.take_sublist _ _)
  · exact h

theorem runPairs_min (gl : List Rectangle) (base : Int)
    (prs : List (Rectangle × Rectangle)) :
    ∀ best succ,
      (runPairs gl base prs best succ).2.length < MAX_SUCCESSORS →
      ∀ a b, (a, b) ∈ prs → count_overlaps gl (merge_rectangles a b) = 2 →
        (runPairs gl base prs best succ).1 ≤
          base - a.cost - b.cost + (merge_rectangles a b).cost := by
  induction prs with
  | nil =>
    intro best succ hcard a b hab
    cases hab
  | cons pr rest ih =>
    intro best succ hcard a b hab hvalid
    obtain ⟨h1, h2⟩ := pr
    simp only [runPairs] at hcard ⊢
    by_cases hv : count_overlaps gl (merge_rectangles h1 h2) = 2
    · rw [if_pos hv] at hcard ⊢
      by_cases hlt : base - h1.cost - h2.cost + (merge_rectangles h1 h2).cost < best
      · rw [if_pos hlt] at hcard ⊢
        rcases List.mem_cons.mp hab with heq2 | hab2
        · obtain ⟨rfl, rfl⟩ := Prod.mk.injEq a b h1 h2 ▸ heq2
          exact runPairs_best_le gl base rest _ _
        · exact ih _ _ hcard a b hab2 hvalid
      · rw [if_neg hlt] at hcard ⊢
        by_cases heq : base - h1.cost - h2.cost + (merge_rectangles h1 h2).cost = best
        · rw [if_pos heq] at hcard ⊢
          by_cases hmem : frozen (((gl.erase h1).erase h2) ++ [merge_rectangles h1 h2]) ∈
              succ.map frozen
          · rw [if_pos hmem] at hcard ⊢
            by_cases hfull : MAX_SUCCESSORS ≤ succ.length
            · rw [if_pos hfull] at hcard ⊢
              have hc : succ.length < MAX_SUCCESSORS := hcard
              omega
            · rw [if_neg hfull] at hcard ⊢
              rcases List.mem_cons.mp hab with heq2 | hab2
              · obtain ⟨rfl, rfl⟩ := Prod.mk.injEq a b h1 h2 ▸ heq2
                exact le_trans (runPairs_best_le gl base rest best succ) (le_of_eq heq.symm)
              · exact ih _ _ hcard a b hab2 hvalid
          · rw [if_neg hmem] at hcard ⊢
            by_cases hfull : MAX_SUCCESSORS ≤ (succ ++ [(((gl.erase h1).erase h2) ++
                [merge_rectangles h1 h2]).dedup]).length
            · rw [if_pos hfull] at hcard ⊢
              have hc : (succ ++ [(((gl.erase h1).erase h2) ++
                [merge_rectangles h1 h2]).dedup]).length < MAX_SUCCESSORS := hcard
              omega
            · rw [if_neg hfull] at hcard ⊢
              rcases List.mem_cons.mp hab with heq2 | hab2
              · obtain ⟨rfl, rfl⟩ := Prod.mk.injEq a b h1 h2 ▸ heq2
                exact le_trans (runPairs_best_le gl base rest best _) (le_of_eq heq.symm)
              · exact ih _ _ hcard a b hab2 hvalid
        · rw [if_neg heq] at hcard ⊢
          rcases List.mem_cons.mp hab with heq2 | hab2
          · obtain ⟨rfl, rfl⟩ := Prod.mk.injEq a b h1 h2 ▸ heq2
            exact le_trans (runPairs_best_le gl base rest best succ) (by omega)
          · exact ih _ _ hcard a b hab2 hvalid
    · rw [if_neg hv] at hcard ⊢
      rcases List.mem_cons.mp hab with heq2 | hab2
      · obtain ⟨rfl, rfl⟩ := Prod.mk.injEq a b h1 h2 ▸ heq2
        exact absurd hvalid hv
      · exact ih _ _ hcard a b hab2 hvalid

theorem runPartitions_min (ps : List (List Rectangle)) :
    ∀ best succ,
      (runPartitions ps best succ).2.length < MAX_SUCCESSORS →
      ∀ gl ∈ ps, ∀ a b, (a, b) ∈ pairsOf gl →
        count_overlaps gl (merge_rectangles a b) = 2 →
        (runPartitions ps best succ).1 ≤
          get_score gl - a.cost - b.cost + (merge_rectangles a b).cost := by
  induction ps with
  | nil =>
    intro best succ hcard gl hgl
    cases hgl
  | cons g rest ih =>
    intro best succ hcard gl hgl a b hab hvalid
    simp only [runPartitions] at hcard ⊢
    by_cases hfull : MAX_SUCCESSORS ≤ succ.length
    · rw [if_pos hfull] at hcard ⊢
      have hc : succ.length < MAX_SUCCESSORS := hcard
      omega
    · rw [if_neg hfull] at hcard ⊢
      rcases List.mem_cons.mp hgl with rfl | hgl2
      · have hinner : (runPairs gl (get_score gl) (pairsOf gl) best succ).2.length <
            MAX_SUCCESSORS := by
          by_contra hge
          push_neg at hge
          rw [runPartitions_stuck_snd rest _ _ hge] at hcard
          omega
        exact le_trans (runPartitions_best_le rest _ _)
          (runPairs_min gl (get_score gl) (pairsOf gl) best succ hinner a b hab hvalid)
      · exact ih _ _ hcard gl hgl2 a b hab hvalid

theorem successors_length_le (ps : List (List Rectangle)) :
    (successors_by_agglomeration ps).2.length ≤ MAX_SUCCESSORS := by
  rw [successors_snd_length]
  omega

theorem successors_min (ps : List (List Rectangle))
    (h : (successors_by_agglomeration ps).2.length < MAX_SUCCESSORS) :
    ∀ gl ∈ ps, ∀ a b, (a, b) ∈ pairsOf gl →
      count_overlaps gl (merge_rectangles a b) = 2 →
      (successors_by_agglomeration ps).1 ≤
        get_score gl - a.cost - b.cost + (merge_rectangles a b).cost := by
  rw [successors_snd_length] at h
  have hlen : (runPartitions ps sysMaxsize []).2.length < MAX_SUCCESSORS := by omega
  intro gl hgl a b hab hvalid
  rw [successors_fst]
  exact runPartitions_min ps sysMaxsize [] hlen gl hgl a b hab hvalid

/-- Claim C1 (amended): every partition in the returned successor set of a
round is obtained from some input partition by a valid (locality-respecting)
pair merge whose incrementally computed score equals the returned best score;
that best score is the minimum score over all valid merges across all
candidate partitions whenever the round finishes with fewer than
`MAX_SUCCESSORS` successors (the cap may otherwise cut the scan short before
later candidates are examined); the set is deduplicated by unordered
rectangle-set equality, and it never has more than `MAX_SUCCESSORS = 100`
members (a uniform random sample — modelled as taking the first 100 — being
kept if more were generated). -/
theorem claim_C1 (partitions : List (List Rectangle)) :
    (∀ s ∈ (successors_by_agglomeration partitions).2,
      ∃ gl ∈ partitions, ∃ house1 house2,
        house1 ∈ gl ∧ house2 ∈ gl.erase house1 ∧
        successorValid gl house1 house2 = true ∧
        s = (((gl.erase house1).erase house2) ++
          [merge_rectangles house1 house2]).dedup ∧
        get_score gl - house1.cost - house2.cost +
          (merge_rectangles house1 house2).cost =
          (successors_by_agglomeration partitions).1) ∧
    ((successors_by_agglomeration partitions).2.map frozen).Nodup ∧
    (successors_by_agglomeration partitions).2.length ≤ MAX_SUCCESSORS ∧
    ((successors_by_agglomeration partitions).2.length < MAX_SUCCESSORS →
      ∀ gl ∈ partitions, ∀ house1 house2, house1 ∈ gl → house2 ∈ gl.erase house1 →
        successorValid gl house1 house2 = true →
        (successors_by_agglomeration partitions).1 ≤
          get_score gl - house1.cost - house2.cost +
            (merge_rectangles house1 house2).cost) := by
  refine ⟨?_, successors_nodupFrozen partitions, successors_length_le partitions, ?_⟩
  · intro s hs
    obtain ⟨gl, hgl, h1, h2, hm1, hm2, hcnt, hs', hsc⟩ := successors_prov partitions s hs
    refine ⟨gl, hgl, h1, h2, hm1, hm2, ?_, hs', hsc⟩
    unfold successorValid
    rw [beq_iff_eq]
    exact hcnt
  · intro hlen gl hgl house1 house2 hm1 hm2 hval
    unfold successorValid at hval
    rw [beq_iff_eq] at hval
    obtain ⟨a, b, hab, hmeq, hceq⟩ := exists_pair_cover gl house1 house2 hm1 hm2
    have := successors_min partitions hlen gl hgl a b hab (by rw [hmeq]; exact hval)
    rw [hmeq] at this
    omega

/-- Witness for C1 at a concrete round that finishes below the cap. -/
theorem claim_C1_witness :
    (successors_by_agglomeration [[make_rectangle 0 0 0 0, make_rectangle 1 0 1 0]]).2.length <
      MAX_SUCCESSORS ∧
    (successors_by_agglomeration [[make_rectangle 0 0 0 0, make_rectangle 1 0 1 0]]).1 ≤
      get_score [make_rectangle 0 0 0 0, make_rectangle 1 0 1 0] -
        (make_rectangle 0 0 0 0).cost - (make_rectangle 1 0 1 0).cost +
        (merge_rectangles (make_rectangle 0 0 0 0) (make_rectangle 1 0 1 0)).cost := by
  have h := claim_C1 [[make_rectangle 0 0 0 0, make_rectangle 1 0 1 0]]
  exact ⟨by decide, h.2.2.2 (by decide) _ (by decide) _ _ (by decide) (by decide) (by decide)⟩

/-- The C1 counterexample input: 100 two-rectangle partitions whose only
merges are all valid with score 12, followed by one partition whose only
merge is valid with score 11. -/
def c1ex : List (List Rectangle) :=
  ((List.range 100).map (fun k =>
    [make_rectangle 0 (k : Int) 0 (k : Int), make_rectangle 1 (k : Int) 1 (k : Int)])) ++
  [[make_rectangle 50 0 50 0, make_rectangle 50 0 50 0]]

/-- Counterexample to C1 as stated: after 100 equal-score successors are
accumulated, the round stops before examining the last candidate partition,
whose valid merge scores 11 — strictly below the returned best score 12.  So
the returned best score is not the minimum over all valid merges across all
candidate partitions in the round. -/
theorem claim_C1_counterexample :
    (successors_by_agglomeration c1ex).1 = 12 ∧
    [make_rectangle 50 0 50 0, make_rectangle 50 0 50 0] ∈ c1ex ∧
    make_rectangle 50 0 50 0 ∈ [make_rectangle 50 0 50 0, make_rectangle 50 0 50 0] ∧
    make_rectangle 50 0 50 0 ∈
      [make_rectangle 50 0 50 0, make_rectangle 50 0 50 0].erase (make_rectangle 50 0 50 0) ∧
    successorValid [make_rectangle 50 0 50 0, make_rectangle 50 0 50 0]
      (make_rectangle 50 0 50 0) (make_rectangle 50 0 50 0) = true ∧
    get_score [make_rectangle 50 0 50 0, make_rectangle 50 0 50 0] -
      (make_rectangle 50 0 50 0).cost - (make_rectangle 50 0 50 0).cost +
      (merge_rectangles (make_rectangle 50 0 50 0) (make_rectangle 50 0 50 0)).cost = 11 ∧
    (11 : Int) < 12 := by
  refine ⟨by decide, by decide, by decide, by decide, by decide, by decide, by decide⟩

/-- Claim C4: every successor partition produced in a round has cardinality
strictly less than the cardinality of the partition it was derived from (two
members removed, one merged member added, then deduplicated as an unordered
set), so cardinality strictly decreases across agglomeration rounds. -/
theorem claim_C4 (partitions : List (List Rectangle)) :
    ∀ s ∈ (successors_by_agglomeration partitions).2,
      s.Nodup ∧ ∃ gl ∈ partitions, s.length < gl.length := by
  intro s hs
  obtain ⟨gl, hgl, h1, h2, hm1, hm2, hcnt, hs', hsc⟩ := successors_prov partitions s hs
  subst hs'
  refine ⟨List.nodup_dedup _, gl, hgl, ?_⟩
  have hlen1 : (gl.erase h1).length = gl.length - 1 := List.length_erase_of_mem hm1
  have hlen2 : ((gl.erase h1).erase h2).length = (gl.erase h1).length - 1 :=
    List.length_erase_of_mem hm2
  have hge1 : 1 ≤ gl.length := List.length_pos.mpr (List.ne_nil_of_mem hm1)
  have hge2 : 1 ≤ (gl.erase h1).length := List.length_pos.mpr (List.ne_nil_of_mem hm2)
  have hd : ((((gl.erase h1).erase h2) ++ [merge_rectangles h1 h2]).dedup).length ≤
      (((gl.erase h1).erase h2) ++ [merge_rectangles h1 h2]).length :=
    (List.dedup_sublist _).length_le
  simp only [List.length_append, List.length_singleton] at hd
  omega

/-- Witness for C4 at a concrete round. -/
theorem claim_C4_witness :
    ((successors_by_agglomeration [[make_rectangle 0 0 0 0, make_rectangle 1 0 1 0]]).2.headD
        []).Nodup ∧
    ∃ gl ∈ [[make_rectangle 0 0 0 0, make_rectangle 1 0 1 0]],
      ((successors_by_agglomeration [[make_rectangle 0 0 0 0, make_rectangle 1 0 1 0]]).2.headD
        []).length < gl.length := by
  exact claim_C4 [[make_rectangle 0 0 0 0, make_rectangle 1 0 1 0]] _ (by decide)

theorem store_isSome (bs : BestSolution) (c : List Rectangle) (sc : Int)
    (goal : Nat) (h : bs._solution.isSome = true) :
    (bs.store c sc goal)._solution.isSome = true := by
  unfold BestSolution.store
  split
  · rfl
  · exact h

theorem agglomerateLoop_isSome (maxG goal : Nat) :
    ∀ fuel successors num bs, bs._solution.isSome = true →
      (agglomerateLoop maxG goal fuel successors num bs)._solution.isSome = true := by
  intro fuel
  induction fuel with
  | zero =>
    intro successors num bs h
    exact h
  | succ n ih =>
    intro successors num bs h
    simp only [agglomerateLoop]
    split
    · exact h
    · split
      · exact h
      · exact ih _ _ _ (store_isSome _ _ _ _ h)

/-- Claim C9 (amended): the search loop cannot fail — `agglomerate` is total
and returns a present (non-absent) tracked solution whenever the initial
partition's cardinality is at most the configured maximum (and its score is
below the `sys.maxsize` sentinel, as for every field-derived partition).
When every candidate offered to the tracker is rejected — e.g. an initial
partition larger than the configured maximum with the loop stopping at the
goal cardinality — the returned "solution" is the absent value (see the
counterexample). -/
theorem claim_C9 (maximum_greenhouses goal : Nat) (partition : List Rectangle)
    (hlen : partition.length ≤ maximum_greenhouses)
    (hscore : get_score partition < sysMaxsize) :
    ∃ p, agglomerate maximum_greenhouses partition goal = [some p] := by
  simp only [agglomerate]
  have h0 : (BestSolution.init.store partition (get_score partition)
      maximum_greenhouses)._solution.isSome = true := by
    unfold BestSolution.store BestSolution.init
    rw [if_pos ⟨hscore, hlen⟩]
    rfl
  have h := agglomerateLoop_isSome maximum_greenhouses goal (partition.length + 1)
    [partition] partition.length _ h0
  obtain ⟨p, hp⟩ := Option.isSome_iff_exists.mp h
  refine ⟨p, ?_⟩
  rw [hp]

/-- Witness for C9 at a concrete within-budget partition. -/
theorem claim_C9_witness :
    [make_rectangle 0 0 0 0].length ≤ 2 ∧
    get_score [make_rectangle 0 0 0 0] < sysMaxsize ∧
    ∃ p, agglomerate 2 [make_rectangle 0 0 0 0] 2 = [some p] :=
  ⟨by decide, by decide, claim_C9 2 2 [make_rectangle 0 0 0 0] (by decide) (by decide)⟩

theorem listMin_le (l : List Int) (x : Int) (hx : x ∈ l) : listMin l ≤ x := by
  cases l with
  | nil => cases hx
  | cons h t =>
    rcases List.mem_cons.mp hx with rfl | hx
    · exact foldl_min_le_init t x
    · exact foldl_min_le_mem t h x hx

theorem le_listMax (l : List Int) (x : Int) (hx : x ∈ l) : x ≤ listMax l := by
  cases l with
  | nil => cases hx
  | cons h t =>
    rcases List.mem_cons.mp hx with rfl | hx
    · exact le_foldl_max_init t x
    · exact le_foldl_max_mem t h x hx

theorem foldl_min_mem (l : List Int) : ∀ a, l.foldl min a = a ∨ l.foldl min a ∈ l := by
  induction l with
  | nil =>
    intro a
    exact Or.inl rfl
  | cons y t ih =>
    intro a
    rcases ih (min a y) with h | h
    · rcases min_choice a y with hm | hm
      · exact Or.inl (by rw [List.foldl_cons, h, hm])
      · refine Or.inr ?_
        rw [List.foldl_cons, h, hm]
        exact List.mem_cons_self y t
    · exact Or.inr (List.mem_cons_of_mem y h)

theorem foldl_max_mem (l : List Int) : ∀ a, l.foldl max a = a ∨ l.foldl max a ∈ l := by
  induction l with
  | nil =>
    intro a
    exact Or.inl rfl
  | cons y t ih =>
    intro a
    rcases ih (max a y) with h | h
    · rcases max_choice a y with hm | hm
      · exact Or.inl (by rw [List.foldl_cons, h, hm])
      · refine Or.inr ?_
        rw [List.foldl_cons, h, hm]
        exact List.mem_cons_self y t
    · exact Or.inr (List.mem_cons_of_mem y h)

theorem listMin_mem (l : List Int) (hl : l ≠ []) : listMin l ∈ l := by
  cases l with
  | nil => exact absurd rfl hl
  | cons h t =>
    rcases foldl_min_mem t h with he | he
    · rw [listMin, he]
      exact List.mem_cons_self h t
    · exact List.mem_cons_of_mem h (by rw [listMin]; exact he)

theorem listMax_mem (l : List Int) (hl : l ≠ []) : listMax l ∈ l := by
  cases l with
  | nil => exact absurd rfl hl
  | cons h t =>
    rcases foldl_max_mem t h with he | he
    · rw [listMax, he]
      exact List.mem_cons_self h t
    · exact List.mem_cons_of_mem h (by rw [listMax]; exact he)

/-- Claim C8: the feasible-region query's three-way contract: called with no
rectangle it returns the field's root region; called with a rectangle
containing at least one occupied point it returns `some` of the tightest
rectangle enclosing exactly the occupied points inside that rectangle;
called with a rectangle containing no occupied point it returns the distinct
absence value `none`, which differs from the root-region result and from
`some` of any rectangle.  The hypotheses `0 ≤ rect.top` and
`rect.bottom < len(rows)` delimit the range in which the total row-access
model agrees with the source's direct list indexing. -/
theorem claim_C8 (f : Field) (hf : FieldInv f) (rect : Rectangle)
    (hT : 0 ≤ rect.top) (hB : rect.bottom < (f.rows.length : Int)) :
    feasible_region f none = some f.root_region ∧
    ((∃ p ∈ f.berries, rect.containsPoint p = true) →
      ∃ r, feasible_region f (some rect) = some r ∧
        (∀ p ∈ f.berries, rect.containsPoint p = true → r.containsPoint p = true) ∧
        (∀ r' : Rectangle,
          (∀ p ∈ f.berries, rect.containsPoint p = true → r'.containsPoint p = true) →
          r'.top ≤ r.top ∧ r.bottom ≤ r'.bottom ∧
            r'.left ≤ r.left ∧ r.right ≤ r'.right)) ∧
    ((∀ p ∈ f.berries, rect.containsPoint p = false) →
      feasible_region f (some rect) = none ∧
      feasible_region f (some rect) ≠ feasible_region f none ∧
      ∀ r : Rectangle, feasible_region f (some rect) ≠ some r) := by
  refine ⟨rfl, ?_, ?_⟩
  · rintro ⟨p0, hp0, hc0⟩
    have hne : get_berries_in_rectangle f rect ≠ [] :=
      List.ne_nil_of_mem ((mem_get_berries f hf rect p0).mpr ⟨hp0, hc0⟩)
    simp only [feasible_region]
    rw [if_neg (by simpa [List.isEmpty_iff] using hne)]
    refine ⟨_, rfl, ?_, ?_⟩
    · intro p hp hc
      have hmem := (mem_get_berries f hf rect p).mpr ⟨hp, hc⟩
      simp only [make_rectangle, Rectangle.containsPoint, Bool.and_eq_true,
        decide_eq_true_eq]
      refine ⟨⟨⟨?_, ?_⟩, ?_⟩, ?_⟩
      · exact listMin_le _ p.1 (List.mem_map_of_mem _ hmem)
      · exact le_listMax _ p.1 (List.mem_map_of_mem _ hmem)
      · exact listMin_le _ p.2 (List.mem_map_of_mem _ hmem)
      · exact le_listMax _ p.2 (List.mem_map_of_mem _ hmem)
    · intro r' hr'
      have hcontains : ∀ q ∈ get_berries_in_rectangle f rect,
          r'.containsPoint q = true := by
        intro q hq
        have := (mem_get_berries f hf rect q).mp hq
        exact hr' q this.1 this.2
      have hmapne0 : (get_berries_in_rectangle f rect).map (fun b => b.1) ≠ [] := by
        simpa using hne
      have hmapne1 : (get_berries_in_rectangle f rect).map (fun b => b.2) ≠ [] := by
        simpa using hne
      obtain ⟨ptop, hptop, hptop'⟩ :=
        List.mem_map.mp (listMin_mem _ hmapne0)
      obtain ⟨pbot, hpbot, hpbot'⟩ :=
        List.mem_map.mp (listMax_mem _ hmapne0)
      obtain ⟨plft, hplft, hplft'⟩ :=
        List.mem_map.mp (listMin_mem _ hmapne1)
      obtain ⟨prgt, hprgt, hprgt'⟩ :=
        List.mem_map.mp (listMax_mem _ hmapne1)
      have h1 := hcontains ptop hptop
      have h2 := hcontains pbot hpbot
      have h3 := hcontains plft hplft
      have h4 := hcontains prgt hprgt
      simp only [Rectangle.containsPoint, Bool.and_eq_true, decide_eq_true_eq]
        at h1 h2 h3 h4
      simp only [make_rectangle]
      refine ⟨?_, ?_, ?_, ?_⟩
      · rw [← hptop']
        exact h1.1.1.1
      · rw [← hpbot']
        exact h2.1.1.2
      · rw [← hplft']
        exact h3.1.2
      · rw [← hprgt']
        exact h4.2
  · intro hout
    have hempty : get_berries_in_rectangle f rect = [] := by
      by_contra hne
      obtain ⟨p, hp⟩ := List.exists_mem_of_ne_nil _ hne
      have := (mem_get_berries f hf rect p).mp hp
      rw [hout p this.1] at this
      exact Bool.false_ne_true this.2
    have hnone : feasible_region f (some rect) = none := by
      simp only [feasible_region]
      rw [if_pos (by simp [hempty])]
    refine ⟨hnone, ?_, ?_⟩
    · rw [hnone]
      simp [feasible_region]
    · intro r
      rw [hnone]
      simp

/-- Witness for C8 at a concrete field and rectangles. -/
theorem claim_C8_witness :
    feasible_region (mkField 1 [[true]]) none =
      some (mkField 1 [[true]]).root_region ∧
    (∃ r, feasible_region (mkField 1 [[true]]) (some (make_rectangle 0 0 0 0)) = some r ∧
      (∀ p ∈ (mkField 1 [[true]]).berries,
        (make_rectangle 0 0 0 0).containsPoint p = true → r.containsPoint p = true)) := by
  have h := claim_C8 (mkField 1 [[true]]) (mkField_inv 1 [[true]])
    (make_rectangle 0 0 0 0) (by decide) (by decide)
  obtain ⟨r, hr, hcont, _⟩ := h.2.1 ⟨((0 : Int), (0 : Int)), by decide, by decide⟩
  exact ⟨h.1, r, hr, hcont⟩

/-- One scan line of `get_horizontal_runs`/`get_vertical_runs`
(solve_problems.py): fold over the positions of one row (or column),
accumulating consecutive berries in a buffer and yielding every finished
buffer of length > 1. -/
def runsScan (berries : List Point) (mk : Nat → Point) (count : Nat) :
    List (List Point) :=
  let step := fun (st : List (List Point) × List Point) (j : Nat) =>
    let point := mk j
    if point ∈ berries then (st.1, st.2 ++ [point])
    else if st.2 = [] then st
    else if st.2.length > 1 then (st.1 ++ [st.2], ([] : List Point))
    else (st.1, ([] : List Point))
  let r := (List.range count).foldl step ([], [])
  if r.2.length > 1 then r.1 ++ [r.2] else r.1

/-- `get_horizontal_runs` (solve_problems.py): natural horizontal clusters
(length at least 2) of berries, row by row. -/
def get_horizontal_runs (f : Field) : List (List Point) :=
  let berries := get_berries_in_rectangle f f.root_region
  (List.range f.num_rows).flatMap (fun row =>
    runsScan berries (fun col => (((row : Int), (col : Int)) : Point)) f.num_cols)

/-- `get_vertical_runs` (solve_problems.py): natural vertical clusters,
column by column. -/
def get_vertical_runs (f : Field) : List (List Point) :=
  let berries := get_berries_in_rectangle f f.root_region
  (List.range f.num_cols).flatMap (fun col =>
    runsScan berries (fun row => (((row : Int), (col : Int)) : Point)) f.num_rows)

/-- `pointlist2rectangle` (solve_problems.py): the enclosing rectangle of a
(nonempty) list of points. -/
def pointlist2rectangle (point_list : List Point) : Rectangle :=
  let row_elems := point_list.map (fun p => p.1)
  let col_elems := point_list.map (fun p => p.2)
  make_rectangle (listMin row_elems) (listMin col_elems)
    (listMax row_elems) (listMax col_elems)

/-- `assign_open_greenhouses` (solve_problems.py): append a 1×1 rectangle for
every berry not covered by any rectangle of the partition (membership is
checked against the area-sorted view `sp` of the partition). -/
def assign_open_greenhouses (f : Field) (partition : List Rectangle) :
    List Rectangle :=
  let berries := get_berries_in_rectangle f f.root_region
  let sp := partition.insertionSort (fun x y => x.area ≤ y.area)
  partition ++ (berries.filter
    (fun berry => ! sp.any (fun r => r.containsPoint berry))).map
    (fun berry => make_rectangle berry.1 berry.2 berry.1 berry.2)

/-- One full pass over the (stale) pair list in `combine_and_maintain_density`
(solve_problems.py): skip pairs whose members were already merged away, merge
a pair when the density and locality tests pass, and count the merges. -/
def densityPass (f : Field) :
    List (Rectangle × Rectangle) → List Rectangle → Nat → List Rectangle × Nat
  | [], partition, num_merged => (partition, num_merged)
  | (first, second) :: rest, partition, num_merged =>
    if first ∈ partition ∧ second ∈ partition then
      if density_merge_ok f partition first second then
        densityPass f rest
          (((partition.erase first).erase second) ++ [merge_rectangles first second])
          (num_merged + 1)
      else densityPass f rest partition num_merged
    else densityPass f rest partition num_merged

/-- The `while True` loop of `combine_and_maintain_density`, with fuel: each
pass that merges at least one pair shortens the partition, so
`partition.length + 1` passes suffice at the call site. -/
def densityLoop (f : Field) : Nat → List Rectangle → List Rectangle
  | 0, partition => partition
  | fuel + 1, partition =>
    let r := densityPass f (pairsOf partition) partition 0
    if r.2 = 0 then r.1 else densityLoop f fuel r.1

/-- `combine_and_maintain_density` (solve_problems.py). -/
def combine_and_maintain_density (f : Field) (partition : List Rectangle) :
    List Rectangle :=
  densityLoop f (partition.length + 1) partition

/-- `get_start_state` (solve_problems.py).  The two dicts are modelled
functionally: `mix` maps each berry to its pair of run indices (the first
horizontal and the first vertical consolidated run containing it, via
`_get_rect_id`), and `mirror` groups the berries of the root region by that
key; the state is one enclosing rectangle per group.  Python-2 dict iteration
order is unspecified; the groups are enumerated in first-occurrence order of
their keys. -/
def get_start_state (f : Field) : List Rectangle :=
  let vertical_runs := combine_and_maintain_density f
    (assign_open_greenhouses f ((get_vertical_runs f).map pointlist2rectangle))
  let horiz_runs := combine_and_maintain_density f
    (assign_open_greenhouses f ((get_horizontal_runs f).map pointlist2rectangle))
  let mix := (list_berries f horiz_runs).map
    (fun bi => (bi.1, (bi.2, get_rect_id bi.1 vertical_runs)))
  let keys := (mix.map (fun bi => bi.2)).dedup
  keys.map (fun key => pointlist2rectangle
    ((mix.filter (fun bi => decide (bi.2 = key))).map (fun bi => bi.1)))

theorem pointlist2rectangle_contains (pl : List Point) (p : Point) (hp : p ∈ pl) :
    (pointlist2rectangle pl).containsPoint p = true := by
  simp only [pointlist2rectangle, make_rectangle, Rectangle.containsPoint,
    Bool.and_eq_true, decide_eq_true_eq]
  refine ⟨⟨⟨?_, ?_⟩, ?_⟩, ?_⟩
  · exact listMin_le _ p.1 (List.mem_map_of_mem _ hp)
  · exact le_listMax _ p.1 (List.mem_map_of_mem _ hp)
  · exact listMin_le _ p.2 (List.mem_map_of_mem _ hp)
  · exact le_listMax _ p.2 (List.mem_map_of_mem _ hp)

theorem mix_cover {K : Type} [DecidableEq K] (mix : List (Point × K)) (p : Point)
    (key : K) (hp : (p, key) ∈ mix) :
    ∃ r ∈ ((mix.map (fun bi => bi.2)).dedup).map (fun k =>
        pointlist2rectangle
          ((mix.filter (fun bi => decide (bi.2 = k))).map (fun bi => bi.1))),
      r.containsPoint p = true := by
  refine ⟨pointlist2rectangle
    ((mix.filter (fun bi => decide (bi.2 = key))).map (fun bi => bi.1)), ?_, ?_⟩
  · exact List.mem_map_of_mem _ (List.mem_dedup.mpr (List.mem_map_of_mem _ hp))
  · refine pointlist2rectangle_contains _ p ?_
    refine List.mem_map.mpr ⟨(p, key), ?_, rfl⟩
    rw [List.mem_filter]
    exact ⟨hp, by simp⟩

/-- Claim C6: for every field, every occupied point is contained in at least
one member rectangle of the initial partition built by `get_start_state`. -/
theorem claim_C6 (maxG : Nat) (data : List (List Bool)) :
    ∀ p ∈ (mkField maxG data).berries,
      ∃ r ∈ get_start_state (mkField maxG data), r.containsPoint p = true := by
  intro p hp
  have hf := mkField_inv maxG data
  have hroot := berries_in_root _ hf p hp
  have hbs : p ∈ get_berries_in_rectangle (mkField maxG data)
      (mkField maxG data).root_region :=
    (mem_get_berries _ hf _ p).mpr ⟨hp, hroot⟩
  simp only [get_start_state]
  set F := mkField maxG data with hF
  set HR := combine_and_maintain_density F
    (assign_open_greenhouses F ((get_horizontal_runs F).map pointlist2rectangle)) with hHR
  set VR := combine_and_maintain_density F
    (assign_open_greenhouses F ((get_vertical_runs F).map pointlist2rectangle)) with hVR
  have hm : (p, (get_rect_id p HR, get_rect_id p VR)) ∈
      (list_berries F HR).map (fun bi => (bi.1, (bi.2, get_rect_id bi.1 VR))) := by
    refine List.mem_map.mpr ⟨(p, get_rect_id p HR), ?_, rfl⟩
    simp only [list_berries]
    exact List.mem_map.mpr ⟨p, hbs, rfl⟩
  exact mix_cover _ p _ hm

/-- Witness for C6 at a concrete field and berry. -/
theorem claim_C6_witness :
    (((0 : Int), (0 : Int)) : Point) ∈ (mkField 1 [[true]]).berries ∧
    ∃ r ∈ get_start_state (mkField 1 [[true]]),
      r.containsPoint (((0 : Int), (0 : Int)) : Point) = true :=
  ⟨by decide, claim_C6 1 [[true]] ((0 : Int), (0 : Int)) (by decide)⟩

/-- Counterexample to C9 as stated: a well-formed field (one row `@.@`,
maximum one greenhouse) on which `agglomerate` — invoked on the initial
partition with the driver's goal of 2, as in `main` — terminates with the
tracker still empty and returns the absent value: the initial two-rectangle
partition exceeds the configured maximum of 1, so its offer is rejected, and
the loop stops immediately at the goal cardinality. -/
theorem claim_C9_counterexample :
    agglomerate (mkField 1 [[true, false, true]]).maximum_greenhouses
      (get_start_state (mkField 1 [[true, false, true]])) 2 = [none] := by
  decide

end StrawberryFields
